import Mathlib

/-!
Verification development for the tar extraction core: the path reservation
scheduler (`path-reservations.ts`), the entry sanitizer, the filesystem
reconciler, the completion tracker and the ownership helpers of `unpack.ts`.

The development models the POSIX execution profile: the module-level constant
`isWindows` (`process.platform === 'win32'`) is `false`, and the Windows-only
branches (rename-before-unlink, the win32 sentinel path in `reserve`) are
documented where they are elided.  JS numbers that hold uids/gids/times are
modelled as `Int`, permission bits as `Nat`, JS `undefined` as `Option`.
Map absence and the empty queue are identified: the source never distinguishes
a missing queue from an empty one (checked at every use site).
-/

namespace NodeTar

/-- The module-level platform constant of `unpack.ts` / `path-reservations.ts`:
`platform === 'win32'`.  This development models the POSIX profile. -/
def isWindows : Bool := false

/-! ## Path reservation scheduler (`path-reservations.ts`) -/

/-- One slot of a path queue: a direct (exclusive) reservation is the handler
itself, a directory (shared) reservation is a `Set` of handlers.  The JS `Set`
is modelled as a duplicate-free list in insertion order.  Handlers are
identified by `Nat`. -/
inductive Slot where
  | excl (fn : Nat)
  | shared (fns : List Nat)
deriving DecidableEq, Repr

/-- The `Reservation` record: `{paths: [path, ...], dirs: [path, ...]}`.
`dirs` is the JS `Set<string>` in insertion order. -/
structure Resv where
  paths : List String
  dirs : List String
deriving DecidableEq, Repr

/-- The private state of `PathReservations`: `#queues`, `#reservations`,
`#running`.  Queues are a total function; `[]` stands for a key absent from
the `Map` (the source treats the two identically at every use). -/
structure SchedState where
  queues : String → List Slot
  reservations : Nat → Option Resv
  running : List Nat

/-- Pointwise update of the queue map (`this.#queues.set(p, v)`;
`v = []` models `this.#queues.delete(p)`). -/
def qset (qs : String → List Slot) (p : String) (v : List Slot) :
    String → List Slot :=
  fun x => if x = p then v else qs x

/-- JS `Set.add` on a set represented as an insertion-ordered list. -/
def addNext (next : List Nat) (h : Nat) : List Nat :=
  if h ∈ next then next else next ++ [h]

/-- Insertion-order deduplication: `new Set(list)` iterated in order. -/
def dedupFirst (l : List String) : List String :=
  l.foldl (fun acc x => if x ∈ acc then acc else acc ++ [x]) []

/-- Modelled from the spec: node's `path.join` on two arguments (module not in
`src/`), restricted to the shapes `getDirs` produces on canonical
slash-separated paths — the accumulator is a nonempty path, the appended
component a single segment with no slash and not `.` or `..`. -/
def nodeJoin2 (s p : String) : String :=
  if p = "" then s
  else if s = "/" then s ++ p
  else s ++ "/" ++ p

/-- JS `String.prototype.split` with a one-character separator, modelled on
the character list.  Always returns a nonempty list. -/
def splitChars (sep : Char) : List Char → List (List Char)
  | [] => [[]]
  | c :: rest =>
    let r := splitChars sep rest
    if c = sep then [] :: r
    else
      match r with
      | h :: t => (c :: h) :: t
      | [] => [[c]]

/-- `path.split('/')` of the source, via `splitChars`. -/
def jsSplit (sep : Char) (s : String) : List String :=
  (splitChars sep s.data).map String.mk

/-- The reduce body of `getDirs`: join the segment onto the last
accumulated directory (when one exists) and push it, with `'/'` in place of
an empty join (`set.push(path || '/')`). -/
def gdBody (set : List String) (part : String) : List String :=
  let joined :=
    match set.getLast? with
    | some s => nodeJoin2 s part
    | none => part
  set ++ [if joined = "" then "/" else joined]

/-- `getDirs` of `path-reservations.ts`: split on `/`, drop the final
segment, and left-fold the join over the rest. -/
def getDirs (path : String) : List String :=
  ((jsSplit '/' path).dropLast).foldl gdBody []

/-- `q[0] === fn` for a path queue: the head slot is the exclusive
reservation of `fn`. -/
def headIsExcl (q : List Slot) (fn : Nat) : Bool :=
  match q with
  | Slot.excl g :: _ => g == fn
  | _ => false

/-- `q[0] instanceof Set && q[0].has(fn)` for a directory queue. -/
def headSharedHas (q : List Slot) (fn : Nat) : Bool :=
  match q with
  | Slot.shared l :: _ => l.contains fn
  | _ => false

/-- `PathReservations.check`: `fn` is first in line on each of its paths and
is a member of the head set of each of its directory queues.  The source
throws when `fn` has no reservation (marked unreachable); we return `false`
there. -/
def check (s : SchedState) (fn : Nat) : Bool :=
  match s.reservations fn with
  | none => false
  | some res =>
    res.paths.all (fun p => headIsExcl (s.queues p) fn) &&
    res.dirs.all (fun d => headSharedHas (s.queues d) fn)

/-- `PathReservations.#run`: start `fn` when it is not already running and
`check` passes (`if (this.#running.has(fn) || !this.check(fn)) return false`).
Invoking the handler body is an external effect; the model records the start
by adding `fn` to the running set. -/
def runFn (s : SchedState) (fn : Nat) : Bool × SchedState :=
  if fn ∈ s.running ∨ check s fn = false then (false, s)
  else (true, { s with running := fn :: s.running })

/-- The paths loop of `reserve`: append an exclusive slot for `fn` to the
queue of `p` (creating the queue when absent). -/
def addPathQ (qs : String → List Slot) (fn : Nat) (p : String) :
    String → List Slot :=
  qset qs p (qs p ++ [Slot.excl fn])

/-- The dirs loop of `reserve`: add `fn` to the tail shared slot of the queue
of `d` when the tail is shared, otherwise push a fresh `Set` holding `fn`. -/
def addDirQ (qs : String → List Slot) (fn : Nat) (d : String) :
    String → List Slot :=
  match (qs d).getLast? with
  | some (Slot.shared l) =>
    qset qs d ((qs d).dropLast ++ [Slot.shared (if l.contains fn then l else l ++ [fn])])
  | _ => qset qs d (qs d ++ [Slot.shared [fn]])

/-- The directory set of a reservation:
`new Set(paths.map(getDirs).reduce((a, b) => a.concat(b)))`. -/
def reserveDirs (paths : List String) : List String :=
  dedupFirst (paths.flatMap getDirs)

/-- The state after the bookkeeping part of `reserve`: record the
reservation, append an exclusive slot per path and a shared slot (or shared
membership) per ancestor directory. -/
def reserveState (s : SchedState) (paths : List String) (fn : Nat) :
    SchedState where
  queues :=
    (reserveDirs paths).foldl (fun qs d => addDirQ qs fn d)
      (paths.foldl (fun qs p => addPathQ qs fn p) s.queues)
  reservations := fun g =>
    if g = fn then some ⟨paths, reserveDirs paths⟩ else s.reservations g
  running := s.running

/-- `PathReservations.reserve`, on paths the caller has already canonicalized
(the canonicalization map — `normalize-unicode.ts`, `strip-trailing-slashes.ts`
and lower-casing, modules not in `src/` — is a pure per-path function per
§4.1/§4.3 of the spec, so it is taken as already applied; the win32 sentinel
branch is disabled on POSIX). -/
def reserve (s : SchedState) (paths : List String) (fn : Nat) :
    Bool × SchedState :=
  runFn (reserveState s paths fn) fn

/-- The paths loop of `#clear`: for each reserved path whose queue head is
`fn`'s exclusive slot, pop it (deleting an emptied queue) and collect the
successors into `next`. -/
def clearPathStep (fn : Nat) (st : (String → List Slot) × List Nat) (p : String) :
    (String → List Slot) × List Nat :=
  match st.1 p with
  | Slot.excl g :: rest =>
    if g = fn then
      match rest with
      | [] => (qset st.1 p [], st.2)
      | q0 :: _ =>
        (qset st.1 p rest,
          match q0 with
          | Slot.excl h => addNext st.2 h
          | Slot.shared l => l.foldl addNext st.2)
    else st
  | _ => st

/-- The dirs loop of `#clear`: drop `fn` from the head shared slot, popping
the slot (and collecting the next exclusive holder) when `fn` was its only
member, and deleting the queue when it becomes empty. -/
def clearDirStep (fn : Nat) (st : (String → List Slot) × List Nat) (d : String) :
    (String → List Slot) × List Nat :=
  match st.1 d with
  | Slot.shared l :: rest =>
    if l.length = 1 ∧ rest = [] then (qset st.1 d [], st.2)
    else if l.length = 1 then
      (qset st.1 d rest,
        match rest with
        | Slot.excl h :: _ => addNext st.2 h
        | _ => st.2)
    else (qset st.1 d (Slot.shared (l.erase fn) :: rest), st.2)
  | _ => st

/-- Both queue loops of `#clear` run in order, returning the updated queue
map and the accumulated `next` set. -/
def clearQueues (fn : Nat) (res : Resv) (qs : String → List Slot) :
    (String → List Slot) × List Nat :=
  res.dirs.foldl (clearDirStep fn) (res.paths.foldl (clearPathStep fn) (qs, []))

/-- `PathReservations.#clear` (the release callback): a no-op returning
`false` when `fn` is not running; otherwise remove `fn` from every queue it
occupies, drop it from the running set, and start every newly eligible
handler collected in `next`.  The source throws when a running handler has no
reservation (marked unreachable); we return `(false, s)` there. -/
def clear (s : SchedState) (fn : Nat) : Bool × SchedState :=
  if fn ∈ s.running then
    match s.reservations fn with
    | some res =>
      (true,
        (clearQueues fn res s.queues).2.foldl (fun t n => (runFn t n).2)
          { s with
            queues := (clearQueues fn res s.queues).1
            running := s.running.erase fn })
    | none => (false, s)
  else (false, s)

/-- The state of a fresh `PathReservations`. -/
def initSched : SchedState :=
  { queues := fun _ => [], reservations := fun _ => none, running := [] }

/-- States reachable by a sequence of `reserve` and release (`#clear`) calls.
Each `reserve` uses a fresh handler, as in `Unpack[CHECKFS]` where every
reservation passes a fresh closure (a handler's reservation record is
single-use). -/
inductive SchedReachable : SchedState → Prop
  | init : SchedReachable initSched
  | reserveStep {s : SchedState} {paths : List String} {fn : Nat} :
      SchedReachable s → s.reservations fn = none →
      SchedReachable (reserve s paths fn).2
  | releaseStep {s : SchedState} {fn : Nat} :
      SchedReachable s → SchedReachable (clear s fn).2

/-- The list of paths exclusively reserved by `fn` (empty when `fn` holds no
reservation). -/
def reservedPaths (s : SchedState) (fn : Nat) : List String :=
  match s.reservations fn with
  | some res => res.paths
  | none => []

/-- The scheduler invariant: every running handler has a reservation record
and heads (exclusively) the queue of each of its reserved paths; the running
set is duplicate-free. -/
def SchedInv (s : SchedState) : Prop :=
  s.running.Nodup ∧
  ∀ fn ∈ s.running, ∃ res, s.reservations fn = some res ∧
    ∀ p ∈ res.paths, ∃ rest, s.queues p = Slot.excl fn :: rest

/-! ## Completion tracker (`Unpack[PEND]`/`[UNPEND]`/`[MAYBECLOSE]`) -/

/-- The tracker's observable state: the `[ENDED]` flag, the `[PENDING]`
counter (a JS number, so modelled as `Int`), and the list of terminal
notifications emitted so far. -/
structure TrState where
  ended : Bool
  pending : Int
  emitted : List String
deriving DecidableEq, Repr

/-- The terminal notifications, in emission order. -/
def tripleEv : List String := ["prefinish", "finish", "end"]

/-- `Unpack[MAYBECLOSE]`: when `[ENDED]` is set and `[PENDING] === 0`, emit
`prefinish`, `finish`, `end` (in that order, atomically). -/
def maybeClose (s : TrState) : TrState :=
  if s.ended = true ∧ s.pending = 0 then
    { s with emitted := s.emitted ++ tripleEv }
  else s

/-- Tracker events: `[PEND]` (a reservation is entered), `[UNPEND]` (its
completion), and the parser's `ondone` signal. -/
inductive TrEvent where
  | pend
  | unpend
  | done
deriving DecidableEq, Repr

/-- One tracker transition: `[PEND]` increments, `[UNPEND]` decrements and
calls `[MAYBECLOSE]`, `ondone` sets `[ENDED]` and calls `[MAYBECLOSE]`. -/
def trStep (s : TrState) : TrEvent → TrState
  | .pend => { s with pending := s.pending + 1 }
  | .unpend => maybeClose { s with pending := s.pending - 1 }
  | .done => maybeClose { s with ended := true }

/-- The tracker state of a fresh `Unpack`. -/
def trInit : TrState := ⟨false, 0, []⟩

/-- Run the tracker over a trace of events. -/
def trExec (tr : List TrEvent) : TrState := tr.foldl trStep trInit

/-- Well-formed tracker traces, tracked with the current pending count and
whether `ondone` has been seen: no event prefix releases more than it
reserved, entries stop once the upstream is done, `ondone` fires exactly
once, and every reservation is eventually released. -/
def wfAux : List TrEvent → Int → Bool → Bool
  | [], p, d => decide (p = 0) && d
  | e :: rest, p, seenD =>
    match e with
    | .pend => !seenD && wfAux rest (p + 1) seenD
    | .unpend => decide (0 < p) && wfAux rest (p - 1) seenD
    | .done => !seenD && wfAux rest p true

/-! ## Entries, options and ownership helpers (`unpack.ts`) -/

/-- The closed sum of entry kinds dispatched on in `[ONENTRY]`/`[MAKEFS]`. -/
inductive EntryType where
  | file
  | oldFile
  | contiguousFile
  | directory
  | gnuDumpDir
  | link
  | symbolicLink
  | characterDevice
  | blockDevice
  | fifo
  | unknown
deriving DecidableEq, Repr

/-- The fields of a `ReadEntry` this core reads or writes.  `absolute` is
set by `[CHECKPATH]` before any reconciliation. -/
structure Entry where
  type : EntryType
  path : String
  linkpath : Option String
  mode : Option Nat
  uid : Option Int
  gid : Option Int
  mtime : Option Int
  atime : Option Int
  absolute : String
deriving DecidableEq, Repr

/-- `DEFAULT_MAX_DEPTH` of `unpack.ts`. -/
def DEFAULT_MAX_DEPTH : Nat := 1024

/-- The `Unpack` configuration after constructor normalization.  `maxDepth`
is `none` for `Infinity`; `uid`/`gid`/`processUid`/`processGid` are `none`
for `undefined`. -/
structure UnpackOpts where
  cwd : String
  strip : Nat
  maxDepth : Option Nat
  preservePaths : Bool
  keep : Bool
  newer : Bool
  unlink : Bool
  noChmod : Bool
  forceChown : Bool
  preserveOwner : Bool
  win32 : Bool
  uid : Option Int
  gid : Option Int
  processUid : Option Int
  processGid : Option Int
deriving DecidableEq, Repr

/-- `a === a >>> 0` for an integer-valued JS number `a`: it equals its own
unsigned 32-bit coercion exactly when `0 ≤ a < 2^32`. -/
def isU32 (x : Int) : Bool := decide (0 ≤ x ∧ x < 4294967296)

/-- `a !== undefined && a === a >>> 0`. -/
def definedU32 : Option Int → Bool
  | some x => isU32 x
  | none => false

/-- `uint32(a, b, c)` of `unpack.ts`: the first of `a`, `b` that is defined
and equal to its own `>>> 0` coercion; otherwise `c` unchanged. -/
def uint32 (a b c : Option Int) : Option Int :=
  if definedU32 a then a
  else if definedU32 b then b
  else c

/-- `Unpack[UID]`: `uint32(this.uid, entry.uid, this.processUid)`. -/
def applyUid (o : UnpackOpts) (e : Entry) : Option Int :=
  uint32 o.uid e.uid o.processUid

/-- `Unpack[GID]`: `uint32(this.gid, entry.gid, this.processGid)`. -/
def applyGid (o : UnpackOpts) (e : Entry) : Option Int :=
  uint32 o.gid e.gid o.processGid

/-- `Unpack[DOCHOWN]`: force-chown, or preserve-owner with an entry id
differing from the process, or an explicitly configured id differing from
the process (a defined number compared with `!==` against a possibly
undefined process id). -/
def doChown (o : UnpackOpts) (e : Entry) : Bool :=
  o.forceChown ||
  (o.preserveOwner &&
    ((match e.uid with
      | some u => decide (some u ≠ o.processUid)
      | none => false) ||
     (match e.gid with
      | some g => decide (some g ≠ o.processGid)
      | none => false))) ||
  (match o.uid with
   | some u => decide (some u ≠ o.processUid)
   | none => false) ||
  (match o.gid with
   | some g => decide (some g ≠ o.processGid)
   | none => false)

/-- The selection rule exactly as claim C7 words it: the first defined of
configured, entry, process id, coerced to an unsigned 32-bit value
(`x >>> 0` on an integral JS number is `x mod 2^32`). -/
def uint32Claimed (a b c : Option Int) : Option Int :=
  (match a with
   | some x => some x
   | none =>
     match b with
     | some y => some y
     | none => c).map (fun x => x % 4294967296)

/-- A configuration with an explicitly set (JS-legal) uid of `-1`. -/
def oC7 : UnpackOpts :=
  { cwd := "/c", strip := 0, maxDepth := some 1024, preservePaths := false,
    keep := false, newer := false, unlink := false, noChmod := false,
    forceChown := false, preserveOwner := false, win32 := false,
    uid := some (-1), gid := some 0, processUid := some 1000,
    processGid := some 1000 }

/-- A file entry carrying uid 5 / gid 5. -/
def eC7 : Entry :=
  ⟨EntryType.file, "f", none, some 0o644, some 5, some 5, none, none, "/c/f"⟩

/-! ## FS reconciler (`Unpack[CHECKFS2]` / `UnpackSync[CHECKFS]`) -/

/-- What `lstat` revealed at the target path. -/
inductive FsKind where
  | file
  | dir
  | symlink
  | other
deriving DecidableEq, Repr

/-- The stat fields the reconciler consults. -/
structure FsStat where
  kind : FsKind
  mode : Nat
  nlink : Nat
  mtime : Int
deriving DecidableEq, Repr

/-- A destructive or mode-changing filesystem action issued by the
reconciler before the materializer runs. -/
inductive FsAction where
  | chmod (path : String) (mode : Nat)
  | rmdir (path : String)
  | unlink (path : String)
deriving DecidableEq, Repr

/-- The reconciler's observable decision: the actions issued at
`entry.absolute`, whether the entry was skipped (`[SKIP]`), and how many
times `[MAKEFS]` is invoked. -/
structure ReconcileOut where
  actions : List FsAction
  skipped : Bool
  makeFsCalls : Nat
deriving DecidableEq, Repr

/-- `Unpack[ISREUSABLE]`: `entry.type === 'File' && !this.unlink &&
st.isFile() && st.nlink <= 1 && !isWindows`. -/
def isReusable (o : UnpackOpts) (e : Entry) (st : FsStat) : Bool :=
  e.type == EntryType.file && !o.unlink && st.kind == FsKind.file &&
    decide (st.nlink ≤ 1) && !isWindows

/-- The keep/newer guard: `st && (keep || (newer && st.mtime >
(entry.mtime ?? st.mtime)))`. -/
def skipExisting (o : UnpackOpts) (e : Entry) (st : FsStat) : Bool :=
  o.keep || (o.newer && decide (st.mtime > e.mtime.getD st.mtime))

/-- `needChmod`: `!this.noChmod && entry.mode && (st.mode & 0o7777) !==
entry.mode`. -/
def needChmod (o : UnpackOpts) (e : Entry) (st : FsStat) : Bool :=
  !o.noChmod &&
    (match e.mode with
     | some m => decide (m ≠ 0) && decide ((st.mode &&& 0o7777) ≠ m)
     | none => false)

/-- The decision core of `Unpack[CHECKFS2]`'s `afterMakeParent`
continuation, as a function of the `lstat` result (`none` = `lstat`
errored).  A directory entry over a directory chmods when needed; a
non-directory entry over a directory rmdirs unless the path is the
extraction root; a symlink/file in the way is unlinked unless the path is
the extraction root. -/
def checkFs2AfterMakeParent (o : UnpackOpts) (e : Entry)
    (st : Option FsStat) : ReconcileOut :=
  match st with
  | none => ⟨[], false, 1⟩
  | some st =>
    if skipExisting o e st then ⟨[], true, 0⟩
    else if isReusable o e st then ⟨[], false, 1⟩
    else if st.kind = FsKind.dir then
      if e.type = EntryType.directory then
        ⟨if needChmod o e st then [FsAction.chmod e.absolute (e.mode.getD 0)]
          else [], false, 1⟩
      else if e.absolute ≠ o.cwd then ⟨[FsAction.rmdir e.absolute], false, 1⟩
      else ⟨[], false, 1⟩
    else if e.absolute = o.cwd then ⟨[], false, 1⟩
    else ⟨[FsAction.unlink e.absolute], false, 1⟩

/-- The decision core of `UnpackSync[CHECKFS]` after its `lstatSync`.  The
`rmdirSync` branch has no `return` and no cwd guard: a directory on disk
with a non-`Directory` entry is rmdir'd (even at the extraction root), then
control falls through into the unlink step, calling `[MAKEFS]` a second
time. -/
def checkFsSyncAfterStat (o : UnpackOpts) (e : Entry)
    (st : Option FsStat) : ReconcileOut :=
  match st with
  | none => ⟨[], false, 1⟩
  | some st =>
    if skipExisting o e st then ⟨[], true, 0⟩
    else if isReusable o e st then ⟨[], false, 1⟩
    else if st.kind = FsKind.dir ∧ e.type = EntryType.directory then
      ⟨if needChmod o e st then [FsAction.chmod e.absolute (e.mode.getD 0)]
        else [], false, 1⟩
    else
      ⟨(if st.kind = FsKind.dir then [FsAction.rmdir e.absolute] else []) ++
        (if e.absolute = o.cwd then [] else [FsAction.unlink e.absolute]),
        false,
        (if st.kind = FsKind.dir then 1 else 0) + 1⟩

/-- An all-default option set with extraction root `/c`. -/
def oPlain : UnpackOpts :=
  { cwd := "/c", strip := 0, maxDepth := some 1024, preservePaths := false,
    keep := false, newer := false, unlink := false, noChmod := false,
    forceChown := false, preserveOwner := false, win32 := false,
    uid := none, gid := none, processUid := some 1000,
    processGid := some 1000 }

/-- An on-disk directory (nlink 2, mode 0o755). -/
def stDir : FsStat := ⟨FsKind.dir, 0o755, 2, 0⟩

/-- An on-disk regular file with a single link. -/
def stFile1 : FsStat := ⟨FsKind.file, 0o644, 1, 0⟩

/-- A `GNUDumpDir` entry resolving to the extraction root (the sanitizer
accepts directory-kind entries at the root). -/
def eDumpCwd : Entry :=
  ⟨EntryType.gnuDumpDir, "", none, some 0o755, none, none, none, none, "/c"⟩

/-- A `File` entry at `/c/x`. -/
def eFileX : Entry :=
  ⟨EntryType.file, "x", none, some 0o644, none, none, none, none, "/c/x"⟩

/-- An `OldFile` entry at `/c/f`. -/
def eOldF : Entry :=
  ⟨EntryType.oldFile, "f", none, some 0o644, none, none, none, none, "/c/f"⟩

/-- A `File` entry at `/c/f`. -/
def eFileF : Entry :=
  ⟨EntryType.file, "f", none, some 0o644, none, none, none, none, "/c/f"⟩

/-! ## Entry sanitizer (`Unpack[CHECKPATH]` / `[ONENTRY]`) -/

/-- `normalize-windows-path.ts` (module not in `src/`): the identity on
every platform other than win32; the POSIX model keeps it so. -/
def normalizeWindowsPath (p : String) : String := p

/-- Warning codes raised by the sanitizer and the unsupported sink
(`TAR_ENTRY_ERROR`, `TAR_ENTRY_INFO`, `TAR_ENTRY_UNSUPPORTED`). -/
inductive WarnCode where
  | entryError
  | entryInfo
  | entryUnsupported
deriving DecidableEq, Repr

/-- A raised warning: its code and message. -/
structure Warn where
  code : WarnCode
  msg : String
deriving DecidableEq, Repr

/-- Modelled from the spec: `stripAbsolutePath` (module
`strip-absolute-path.ts`, not in `src/`) splits a path into its leading
absolute prefix and the remainder; on POSIX the prefix is the maximal run
of leading slashes (§4.1, strip-absolute). -/
def stripAbsolutePath (p : String) : String × String :=
  (String.mk (p.data.takeWhile (fun c => c = '/')),
   String.mk (p.data.dropWhile (fun c => c = '/')))

/-- `path.isAbsolute` on POSIX: a leading slash. -/
def jsIsAbsolute (p : String) : Bool :=
  match p.data with
  | '/' :: _ => true
  | _ => false

/-- Modelled from the spec: node's `path.resolve(cwd, p)` for a relative
`p` free of `.`/`..` segments (§4.4 step 5, "resolve against `cwd`"). -/
def jsResolve (cwd p : String) : String :=
  if p = "" then cwd else cwd ++ "/" ++ p

/-- `s.indexOf(pre) === 0`: `pre` is a leading run of `s`. -/
def startsWithB (s pre : String) : Bool := pre.data.isPrefixOf s.data

/-- Modelled from the spec: the root split of `path.win32.parse` for the
POSIX-shaped paths of this model — a leading `/` or nothing (drive-letter
and UNC roots are outside the modelled domain). -/
def winRoot (p : String) : String × String :=
  match p.data with
  | '/' :: rest => ("/", String.mk rest)
  | _ => ("", p)

/-- Modelled from the spec: `wc.encode` (module `winchars.js`, not in
`src/`) maps each of the reserved characters to its private-use twin at
`0xF000 + codepoint` (§4.1, Windows-char encode). -/
def winCharEncode (s : String) : String :=
  String.mk (s.data.map (fun c =>
    if c ∈ ['<', '>', ':', '"', '|', '?', '*'] then
      Char.ofNat (0xF000 + c.toNat)
    else c))

/-- `root + encode(rest)` as applied in `[CHECKPATH]` step 8. -/
def winEncodePath (p : String) : String :=
  (winRoot p).1 ++ winCharEncode (winRoot p).2

/-- The strip phase of `[CHECKPATH]`: drop `this.strip` segments from the
path (and, for hard links, from the link target); `none` when the entry is
rejected for having too few segments.  Returns the post-strip segment list
and the updated entry (`String(entry.linkpath)` renders an undefined
linkpath as `"undefined"`, as JS does). -/
def stripPhase (o : UnpackOpts) (e : Entry) : Option (List String × Entry) :=
  let parts := jsSplit '/' (normalizeWindowsPath e.path)
  if o.strip ≠ 0 then
    if parts.length < o.strip then none
    else if e.type = EntryType.link then
      let linkparts :=
        jsSplit '/' (normalizeWindowsPath (e.linkpath.getD "undefined"))
      if linkparts.length ≥ o.strip then
        some (parts.drop o.strip,
          { e with
            linkpath := some (String.intercalate "/" (linkparts.drop o.strip)),
            path := String.intercalate "/" (parts.drop o.strip) })
      else none
    else
      some (parts.drop o.strip,
        { e with path := String.intercalate "/" (parts.drop o.strip) })
  else some (parts, e)

/-- `isFinite(this.maxDepth) && parts.length > this.maxDepth`; `none`
models `Infinity`, which disables the check. -/
def depthExceeded (maxDepth : Option Nat) (parts : List String) : Bool :=
  match maxDepth with
  | some d => decide (parts.length > d)
  | none => false

/-- `Unpack[CHECKPATH]`: strip, depth cap, `..` rejection, absolute-prefix
stripping (applied to the pre-strip normalized path `p`, as in the source),
`absolute` resolution, cwd-escape defense, root-kind check, and (under
`win32`) reserved-character encoding.  Returns the accepted entry with
`absolute` set, or `none` for a skip, plus the warnings raised.  POSIX
platform: the Windows drive-relative `..` form cannot occur. -/
def checkPath (o : UnpackOpts) (e : Entry) : Option Entry × List Warn :=
  match stripPhase o e with
  | none => (none, [])
  | some (parts, e1) =>
    if depthExceeded o.maxDepth parts then
      (none, [⟨WarnCode.entryError, "path excessively deep"⟩])
    else if !o.preservePaths && parts.contains ".." then
      (none, [⟨WarnCode.entryError, "path contains '..'"⟩])
    else
      let rs := stripAbsolutePath (normalizeWindowsPath e.path)
      let e2 := if !o.preservePaths && rs.1 != "" then
          { e1 with path := rs.2 } else e1
      let warns1 : List Warn := if !o.preservePaths && rs.1 != "" then
          [⟨WarnCode.entryInfo, "stripping " ++ rs.1 ++ " from absolute path"⟩]
        else []
      let abs0 := if jsIsAbsolute e2.path then e2.path
        else jsResolve o.cwd e2.path
      if !o.preservePaths && !startsWithB abs0 (o.cwd ++ "/") &&
          abs0 != o.cwd then
        (none, warns1 ++ [⟨WarnCode.entryError, "path escaped extraction target"⟩])
      else if abs0 == o.cwd && !(e2.type == EntryType.directory) &&
          !(e2.type == EntryType.gnuDumpDir) then
        (none, warns1)
      else if o.win32 then
        (some { e2 with
          absolute := winEncodePath abs0,
          path := winEncodePath e2.path }, warns1)
      else (some { e2 with absolute := abs0 }, warns1)

/-- `[ONENTRY]` normalization of directory modes:
`if (entry.mode) entry.mode = entry.mode | 0o700` for `Directory` and
`GNUDumpDir` entries (an absent or zero mode is left alone). -/
def dirModeAdjust (t : EntryType) (mode : Option Nat) : Option Nat :=
  match t with
  | EntryType.directory | EntryType.gnuDumpDir =>
    match mode with
    | some m => if m ≠ 0 then some (m ||| 0o700) else some m
    | none => none
  | _ => mode

/-- The paths reserved by `[CHECKFS]`: `[entry.path]`, plus
`entry.linkpath` when truthy. -/
def reservePathsOf (e : Entry) : List String :=
  [e.path] ++
    (match e.linkpath with
     | some lp => if lp = "" then [] else [lp]
     | none => [])

/-- The per-entry disposition decided by `[ONENTRY]`: rejected entries are
resumed with no reservation taken; devices/FIFO/unknown go to the
unsupported sink; everything else pends and reserves via `[CHECKFS]`. -/
inductive EntryOutcome where
  | skipped
  | unsupported
  | reserved (e : Entry) (paths : List String)
deriving DecidableEq, Repr

/-- `Unpack[ONENTRY]`: dispatch on the sanitized entry, adjusting directory
modes before `[CHECKFS]`. -/
def onEntry (o : UnpackOpts) (e : Entry) : EntryOutcome × List Warn :=
  match checkPath o e with
  | (none, ws) => (EntryOutcome.skipped, ws)
  | (some e1, ws) =>
    match e1.type with
    | EntryType.directory | EntryType.gnuDumpDir =>
      (EntryOutcome.reserved { e1 with mode := dirModeAdjust e1.type e1.mode }
        (reservePathsOf { e1 with mode := dirModeAdjust e1.type e1.mode }), ws)
    | EntryType.file | EntryType.oldFile | EntryType.contiguousFile
    | EntryType.link | EntryType.symbolicLink =>
      (EntryOutcome.reserved e1 (reservePathsOf e1), ws)
    | _ =>
      (EntryOutcome.unsupported,
        ws ++ [⟨WarnCode.entryUnsupported, "unsupported entry type"⟩])

/-- The S5 option set: `maxDepth = 3`. -/
def oDepth : UnpackOpts := { oPlain with maxDepth := some 3 }

/-- The S5 entry: path `a/b/c/d/e`. -/
def eDeep : Entry :=
  ⟨EntryType.file, "a/b/c/d/e", none, some 0o644, none, none, none, none, ""⟩

/-- A `Directory` entry `d` with archive mode `0o500`. -/
def eDirD : Entry :=
  ⟨EntryType.directory, "d", none, some 0o500, none, none, none, none, ""⟩

/-! ## Ancestor lists (`getDirs`) — claim C5 -/

/-- A plain path segment: nonempty, not a dot link, slash-free — the shape
of the components of canonical paths handed to the scheduler. -/
def PlainSeg (x : String) : Prop :=
  x ≠ "" ∧ x ≠ "." ∧ x ≠ ".." ∧ '/' ∉ x.data

instance (x : String) : Decidable (PlainSeg x) := by
  unfold PlainSeg; infer_instance

/-- Strict ancestor order on paths: `b` extends `a` by a nonempty suffix. -/
def StrictAnc (a b : String) : Prop :=
  ∃ t, t ≠ [] ∧ b.data = a.data ++ t

/-- Rejoin the pieces produced by `splitChars` with the separator. -/
def joinChars (sep : Char) : List (List Char) → List Char
  | [] => []
  | [l] => l
  | l :: ls => l ++ sep :: joinChars sep ls

/-- Sum of segment lengths plus one separator per segment. -/
def segLen (l : List String) : Nat :=
  l.foldr (fun x n => x.data.length + 1 + n) 0

/-- The chain of joins built by the fold of `getDirs`, starting from an
accumulator already in the list. -/
def dirsAux (acc : String) : List String → List String
  | [] => []
  | p :: rest => nodeJoin2 acc p :: dirsAux (nodeJoin2 acc p) rest

/-! ## Theorems -/

/-! ### Scheduler invariant: a running handler heads each of its path queues -/

theorem headIsExcl_shape {q : List Slot} {fn : Nat}
    (h : headIsExcl q fn = true) : ∃ rest, q = Slot.excl fn :: rest := by
  rcases q with _ | ⟨s0, rest⟩
  · simp [headIsExcl] at h
  · cases s0 with
    | excl g =>
      simp only [headIsExcl, beq_iff_eq] at h
      exact ⟨rest, by rw [h]⟩
    | shared l => simp [headIsExcl] at h

theorem check_true_spec {s : SchedState} {fn : Nat} (h : check s fn = true) :
    ∃ res, s.reservations fn = some res ∧
      ∀ p ∈ res.paths, ∃ rest, s.queues p = Slot.excl fn :: rest := by
  unfold check at h
  rcases hres : s.reservations fn with _ | res
  · rw [hres] at h; cases h
  · rw [hres, Bool.and_eq_true] at h
    refine ⟨res, rfl, fun p hp => ?_⟩
    exact headIsExcl_shape ((List.all_eq_true.1 h.1) p hp)

theorem addPathQ_keeps_exclHead (qs : String → List Slot) (fn : Nat)
    (p : String) {x : String} {g : Nat} {r : List Slot}
    (h : qs x = Slot.excl g :: r) :
    ∃ r', addPathQ qs fn p x = Slot.excl g :: r' := by
  unfold addPathQ qset
  by_cases hx : x = p
  · subst hx
    rw [if_pos rfl, h]
    exact ⟨r ++ [Slot.excl fn], rfl⟩
  · rw [if_neg hx]
    exact ⟨r, h⟩

theorem addDirQ_apply_ne (qs : String → List Slot) (fn : Nat) (d x : String)
    (hx : x ≠ d) : addDirQ qs fn d x = qs x := by
  unfold addDirQ
  rcases hL : (qs d).getLast? with _ | sl
  · simp [qset, hx]
  · cases sl with
    | excl g' => simp [qset, hx]
    | shared l => simp [qset, hx]

theorem addDirQ_apply_self (qs : String → List Slot) (fn : Nat) (d : String)
    {g : Nat} {r : List Slot} (h : qs d = Slot.excl g :: r) :
    ∃ r', addDirQ qs fn d d = Slot.excl g :: r' := by
  unfold addDirQ
  rw [h]
  rcases hL : (Slot.excl g :: r).getLast? with _ | sl
  · refine ⟨r ++ [Slot.shared [fn]], ?_⟩
    simp [qset]
  · cases sl with
    | excl g' =>
      refine ⟨r ++ [Slot.shared [fn]], ?_⟩
      simp [qset]
    | shared l =>
      rcases r with _ | ⟨a, as⟩
      · rw [List.getLast?_singleton] at hL
        simp at hL
      · refine ⟨List.dropLast (a :: as) ++
          [Slot.shared (if l.contains fn then l else l ++ [fn])], ?_⟩
        simp [qset, List.dropLast_cons₂]

theorem addDirQ_keeps_exclHead (qs : String → List Slot) (fn : Nat)
    (d : String) {x : String} {g : Nat} {r : List Slot}
    (h : qs x = Slot.excl g :: r) :
    ∃ r', addDirQ qs fn d x = Slot.excl g :: r' := by
  by_cases hx : x = d
  · subst hx
    exact addDirQ_apply_self qs fn x h
  · rw [addDirQ_apply_ne qs fn d x hx]
    exact ⟨r, h⟩

theorem foldl_addPathQ_keeps (fn : Nat) (ps : List String) :
    ∀ (qs : String → List Slot) {x : String} {g : Nat} {r : List Slot},
      qs x = Slot.excl g :: r →
      ∃ r', (ps.foldl (fun a p => addPathQ a fn p) qs) x = Slot.excl g :: r' := by
  induction ps with
  | nil =>
    intro qs x g r h
    exact ⟨r, h⟩
  | cons p ps ih =>
    intro qs x g r h
    obtain ⟨r1, h1⟩ := addPathQ_keeps_exclHead qs fn p h
    exact ih _ h1

theorem foldl_addDirQ_keeps (fn : Nat) (ds : List String) :
    ∀ (qs : String → List Slot) {x : String} {g : Nat} {r : List Slot},
      qs x = Slot.excl g :: r →
      ∃ r', (ds.foldl (fun a d => addDirQ a fn d) qs) x = Slot.excl g :: r' := by
  induction ds with
  | nil =>
    intro qs x g r h
    exact ⟨r, h⟩
  | cons d ds ih =>
    intro qs x g r h
    obtain ⟨r1, h1⟩ := addDirQ_keeps_exclHead qs fn d h
    exact ih _ h1

theorem clearPathStep_keeps (fn : Nat) (st : (String → List Slot) × List Nat)
    (p : String) {x : String} {g : Nat} {r : List Slot}
    (hg : g ≠ fn) (h : st.1 x = Slot.excl g :: r) :
    (clearPathStep fn st p).1 x = Slot.excl g :: r := by
  rcases hq : st.1 p with _ | ⟨s0, rest⟩
  · simp only [clearPathStep, hq]; exact h
  · cases s0 with
    | shared l => simp only [clearPathStep, hq]; exact h
    | excl g' =>
      by_cases hgf : g' = fn
      · subst hgf
        have hxp : x ≠ p := by
          intro he
          rw [he, hq] at h
          injection h with h1 _
          injection h1 with h2
          exact hg h2.symm
        rcases rest with _ | ⟨q0, rest'⟩ <;>
          simp [clearPathStep, hq, qset, hxp, h]
      · simp only [clearPathStep, hq, if_neg hgf]; exact h

theorem clearDirStep_keeps (fn : Nat) (st : (String → List Slot) × List Nat)
    (d : String) {x : String} {g : Nat} {r : List Slot}
    (h : st.1 x = Slot.excl g :: r) :
    (clearDirStep fn st d).1 x = Slot.excl g :: r := by
  rcases hq : st.1 d with _ | ⟨s0, rest⟩
  · simp only [clearDirStep, hq]; exact h
  · cases s0 with
    | excl g' => simp only [clearDirStep, hq]; exact h
    | shared l =>
      have hxd : x ≠ d := by
        intro he
        rw [he, hq] at h
        injection h with h1 _
        exact Slot.noConfusion h1
      by_cases c1 : l.length = 1 ∧ rest = []
      · simp [clearDirStep, hq, c1, qset, hxd, h]
      · by_cases c2 : l.length = 1
        · rcases rest with _ | ⟨q0, rest'⟩
          · exact absurd ⟨c2, rfl⟩ c1
          · rcases q0 with g'' | l'' <;>
              simp [clearDirStep, hq, c1, c2, qset, hxd, h]
        · simp [clearDirStep, hq, c1, c2, qset, hxd, h]

theorem foldl_clearPathStep_keeps (fn : Nat) (ps : List String) :
    ∀ (st : (String → List Slot) × List Nat) {x : String} {g : Nat}
      {r : List Slot}, g ≠ fn → st.1 x = Slot.excl g :: r →
      (ps.foldl (clearPathStep fn) st).1 x = Slot.excl g :: r := by
  induction ps with
  | nil =>
    intro st x g r _ h
    exact h
  | cons p ps ih =>
    intro st x g r hg h
    exact ih _ hg (clearPathStep_keeps fn st p hg h)

theorem foldl_clearDirStep_keeps (fn : Nat) (ds : List String) :
    ∀ (st : (String → List Slot) × List Nat) {x : String} {g : Nat}
      {r : List Slot}, st.1 x = Slot.excl g :: r →
      (ds.foldl (clearDirStep fn) st).1 x = Slot.excl g :: r := by
  induction ds with
  | nil =>
    intro st x g r h
    exact h
  | cons d ds ih =>
    intro st x g r h
    exact ih _ (clearDirStep_keeps fn st d h)

theorem runFn_inv {s : SchedState} (h : SchedInv s) (n : Nat) :
    SchedInv (runFn s n).2 := by
  unfold runFn
  by_cases hc : n ∈ s.running ∨ check s n = false
  · rw [if_pos hc]; exact h
  · rw [if_neg hc]
    push_neg at hc
    obtain ⟨hmem, hchk⟩ := hc
    have hchk' : check s n = true := by
      cases hcb : check s n with
      | false => exact absurd hcb hchk
      | true => rfl
    refine ⟨List.nodup_cons.2 ⟨hmem, h.1⟩, fun fn hfn => ?_⟩
    rcases List.mem_cons.1 hfn with he | hm
    · subst he
      exact check_true_spec hchk'
    · exact h.2 fn hm

theorem foldRun_inv (l : List Nat) :
    ∀ {t : SchedState}, SchedInv t →
      SchedInv (l.foldl (fun t n => (runFn t n).2) t) := by
  induction l with
  | nil => exact fun h => h
  | cons n l ih => exact fun h => ih (runFn_inv h n)

theorem reserve_inv {s : SchedState} {paths : List String} {fn : Nat}
    (h : SchedInv s) (hfresh : s.reservations fn = none) :
    SchedInv (reserve s paths fn).2 := by
  apply runFn_inv
  refine ⟨h.1, fun g hg => ?_⟩
  obtain ⟨res, hres, hq⟩ := h.2 g hg
  have hgfn : g ≠ fn := by
    intro he; rw [he, hfresh] at hres; cases hres
  refine ⟨res, ?_, fun p hp => ?_⟩
  · show (if g = fn then _ else s.reservations g) = some res
    rw [if_neg hgfn]; exact hres
  · obtain ⟨r0, hr0⟩ := hq p hp
    obtain ⟨r1, hr1⟩ := foldl_addPathQ_keeps fn paths s.queues hr0
    exact foldl_addDirQ_keeps fn (reserveDirs paths) _ hr1

theorem clear_inv {s : SchedState} (h : SchedInv s) (fn : Nat) :
    SchedInv (clear s fn).2 := by
  unfold clear
  by_cases hmem : fn ∈ s.running
  · rw [if_pos hmem]
    rcases hres : s.reservations fn with _ | res
    · exact h
    · apply foldRun_inv
      refine ⟨h.1.erase fn, fun g hg => ?_⟩
      have hgmem : g ∈ s.running := List.mem_of_mem_erase hg
      have hgfn : g ≠ fn := ((h.1.mem_erase_iff).1 hg).1
      obtain ⟨resg, hresg, hq⟩ := h.2 g hgmem
      refine ⟨resg, hresg, fun p hp => ?_⟩
      obtain ⟨r0, hr0⟩ := hq p hp
      refine ⟨r0, ?_⟩
      show (clearQueues fn res s.queues).1 p = _
      unfold clearQueues
      exact foldl_clearDirStep_keeps fn res.dirs _
        (foldl_clearPathStep_keeps fn res.paths (s.queues, []) hgfn hr0)
  · rw [if_neg hmem]; exact h

theorem schedReachable_inv {s : SchedState} (h : SchedReachable s) :
    SchedInv s := by
  induction h with
  | init => exact ⟨List.nodup_nil, fun fn hfn => absurd hfn (List.not_mem_nil fn)⟩
  | reserveStep _ hfresh ih => exact reserve_inv ih hfresh
  | releaseStep _ ih => exact clear_inv ih _

/-- C1: Scheduler mutual exclusion — over any sequence of `reserve` and
release calls, for every canonical path `p`, at most one handler holding an
exclusive reservation on `p` is in the running set at any moment (so two
handlers whose reserved path sets overlap never run concurrently, i.e. their
start–release intervals are disjoint). -/
theorem scheduler_mutual_exclusion {s : SchedState} (hs : SchedReachable s)
    {f g : Nat} {p : String} (hf : f ∈ s.running) (hg : g ∈ s.running)
    (hpf : p ∈ reservedPaths s f) (hpg : p ∈ reservedPaths s g) : f = g := by
  obtain ⟨_, hre⟩ := schedReachable_inv hs
  obtain ⟨resf, hresf, hqf⟩ := hre f hf
  obtain ⟨resg, hresg, hqg⟩ := hre g hg
  simp only [reservedPaths, hresf] at hpf
  simp only [reservedPaths, hresg] at hpg
  obtain ⟨r1, h1⟩ := hqf p hpf
  obtain ⟨r2, h2⟩ := hqg p hpg
  rw [h1] at h2
  simp only [List.cons.injEq, Slot.excl.injEq] at h2
  exact h2.1

/-- C10: invoking the release callback for a handler that is not in the
running set (in particular invoking it a second time) is a harmless no-op:
`#clear` returns `false` and leaves the queues, the reservation map and the
running set unchanged, so clearing twice equals clearing once. -/
theorem clear_not_running_noop (s : SchedState) (fn : Nat)
    (h : fn ∉ s.running) :
    clear s fn = (false, s) ∧ clear (clear s fn).2 fn = clear s fn := by
  have h1 : clear s fn = (false, s) := by
    unfold clear
    rw [if_neg h]
  exact ⟨h1, by rw [h1]; exact h1⟩

/-- Witness for C1 at a concrete reachable state: after `reserve(["a"], 0)`
on a fresh scheduler, handler `0` is running and holds `"a"` exclusively. -/
theorem scheduler_mutual_exclusion_witness :
    (0 : Nat) ∈ ((reserve initSched ["a"] 0).2).running ∧
    "a" ∈ reservedPaths (reserve initSched ["a"] 0).2 0 ∧ (0 : Nat) = 0 := by
  have hreach : SchedReachable (reserve initSched ["a"] 0).2 :=
    SchedReachable.reserveStep SchedReachable.init rfl
  have h1 : (0 : Nat) ∈ ((reserve initSched ["a"] 0).2).running := by decide
  have h2 : "a" ∈ reservedPaths (reserve initSched ["a"] 0).2 0 := by decide
  exact ⟨h1, h2, scheduler_mutual_exclusion hreach h1 h1 h2 h2⟩

/-- Witness for C10 at a concrete state: handler `0` is not running in a
fresh scheduler and clearing it returns `false` leaving the state intact. -/
theorem clear_not_running_noop_witness :
    (0 : Nat) ∉ initSched.running ∧ clear initSched 0 = (false, initSched) :=
  ⟨by decide, (clear_not_running_noop initSched 0 (by decide)).1⟩

theorem maybeClose_ended (s : TrState) : (maybeClose s).ended = s.ended := by
  unfold maybeClose; split <;> rfl

theorem maybeClose_pending (s : TrState) :
    (maybeClose s).pending = s.pending := by
  unfold maybeClose; split <;> rfl

theorem maybeClose_emitted (s : TrState) :
    (maybeClose s).emitted =
      (if s.ended = true ∧ s.pending = 0 then s.emitted ++ tripleEv
       else s.emitted) := by
  by_cases hc : s.ended = true ∧ s.pending = 0
  · rw [if_pos hc]; unfold maybeClose; rw [if_pos hc]
  · rw [if_neg hc]; unfold maybeClose; rw [if_neg hc]

theorem trRun_done (tr : List TrEvent) :
    ∀ (p : Int) (s : TrState), wfAux tr p true = true → s.ended = true →
      s.pending = p → s.emitted = (if p = 0 then tripleEv else []) →
      (tr.foldl trStep s).emitted = tripleEv := by
  induction tr with
  | nil =>
    intro p s hwf hend hpend hemit
    have hp : p = 0 := by simpa [wfAux] using hwf
    subst hp
    simp [hemit]
  | cons e rest ih =>
    intro p s hwf hend hpend hemit
    cases e with
    | pend => simp [wfAux] at hwf
    | done => simp [wfAux] at hwf
    | unpend =>
      simp only [wfAux, Bool.and_eq_true, decide_eq_true_eq] at hwf
      obtain ⟨hp, hwf⟩ := hwf
      have hpne : ¬(p = 0) := by omega
      have hemit0 : s.emitted = [] := by rw [hemit, if_neg hpne]
      simp only [List.foldl_cons]
      have ht : trStep s .unpend =
          maybeClose { s with pending := s.pending - 1 } := rfl
      apply ih (p - 1) _ hwf
      · rw [ht, maybeClose_ended]; exact hend
      · rw [ht, maybeClose_pending]; simp [hpend]
      · rw [ht, maybeClose_emitted]
        simp only [hend, hpend, hemit0]
        by_cases hz : p - 1 = 0
        · simp [hz]
        · simp [hz]

theorem trRun_predone (tr : List TrEvent) :
    ∀ (p : Int) (s : TrState), wfAux tr p false = true → s.ended = false →
      s.pending = p → s.emitted = [] →
      (tr.foldl trStep s).emitted = tripleEv := by
  induction tr with
  | nil =>
    intro p s hwf _ _ _
    simp [wfAux] at hwf
  | cons e rest ih =>
    intro p s hwf hend hpend hemit
    cases e with
    | pend =>
      simp only [wfAux, Bool.not_false, Bool.true_and] at hwf
      simp only [List.foldl_cons]
      apply ih (p + 1) _ hwf
      · exact hend
      · simp [trStep, hpend]
      · exact hemit
    | unpend =>
      simp only [wfAux, Bool.and_eq_true, decide_eq_true_eq] at hwf
      obtain ⟨hp, hwf⟩ := hwf
      simp only [List.foldl_cons]
      have ht : trStep s .unpend =
          maybeClose { s with pending := s.pending - 1 } := rfl
      apply ih (p - 1) _ hwf
      · rw [ht, maybeClose_ended]; exact hend
      · rw [ht, maybeClose_pending]; simp [hpend]
      · rw [ht, maybeClose_emitted]
        simp [hend, hemit]
    | done =>
      simp only [wfAux, Bool.not_false, Bool.true_and] at hwf
      simp only [List.foldl_cons]
      have ht : trStep s .done = maybeClose { s with ended := true } := rfl
      apply trRun_done rest p _ hwf
      · rw [ht, maybeClose_ended]
      · rw [ht, maybeClose_pending]; exact hpend
      · rw [ht, maybeClose_emitted]
        simp only [hemit, hpend]
        by_cases hz : p = 0
        · simp [hz]
        · simp [hz]

theorem trStep_emit_guard (s : TrState) (e : TrEvent)
    (h : (trStep s e).emitted ≠ s.emitted) :
    (trStep s e).ended = true ∧ (trStep s e).pending = 0 := by
  cases e with
  | pend => exact absurd rfl h
  | unpend =>
    simp only [trStep, maybeClose] at h ⊢
    by_cases hc : s.ended = true ∧ s.pending - 1 = 0
    · rw [if_pos hc]
      exact ⟨hc.1, hc.2⟩
    · rw [if_neg hc] at h
      exact absurd rfl h
  | done =>
    simp only [trStep, maybeClose] at h ⊢
    by_cases hc : True ∧ s.pending = 0
    · rw [if_pos hc]
      exact ⟨rfl, hc.2⟩
    · rw [if_neg hc] at h
      exact absurd rfl h

theorem trExec_append (pre : List TrEvent) (e : TrEvent) :
    trExec (pre ++ [e]) = trStep (trExec pre) e := by
  simp [trExec, List.foldl_append]

/-- C6: over any well-formed trace (releases never outnumber reservations,
no reservation is entered after the upstream `done`, `done` fires exactly
once, and every reservation is released), the terminal notifications
`prefinish`, `finish`, `end` are emitted exactly once each and in that
order; and whenever the emitted list changes, at that instant `ended` is
true and the pending counter is zero (so nothing is emitted while `pending`
is positive or before the upstream ends). -/
theorem tracker_terminal_emission (tr : List TrEvent)
    (hwf : wfAux tr 0 false = true) :
    (trExec tr).emitted = tripleEv ∧
    ∀ pre e suf, tr = pre ++ e :: suf →
      (trExec (pre ++ [e])).emitted ≠ (trExec pre).emitted →
      (trExec (pre ++ [e])).ended = true ∧
        (trExec (pre ++ [e])).pending = 0 := by
  constructor
  · exact trRun_predone tr 0 trInit hwf rfl rfl rfl
  · intro pre e suf _ hne
    rw [trExec_append] at hne ⊢
    exact trStep_emit_guard _ e hne

/-- Witness for C6 on the concrete trace `pend, done, unpend`: it is
well-formed and the run emits exactly `prefinish`, `finish`, `end`. -/
theorem tracker_terminal_emission_witness :
    wfAux [TrEvent.pend, TrEvent.done, TrEvent.unpend] 0 false = true ∧
    (trExec [TrEvent.pend, TrEvent.done, TrEvent.unpend]).emitted =
      ["prefinish", "finish", "end"] :=
  ⟨by decide, (tracker_terminal_emission _ (by decide)).1⟩

/-- C7 as stated is false at a concrete input: with configured uid `-1`
(defined), entry uid `5` and process uid `1000`, chown is performed and the
uid applied is the entry's `5` — not `4294967295`, the unsigned 32-bit
coercion of the first defined value. -/
theorem uid_first_defined_counterexample :
    doChown oC7 eC7 = true ∧
    applyUid oC7 eC7 = some 5 ∧
    uint32Claimed oC7.uid eC7.uid oC7.processUid = some 4294967295 ∧
    applyUid oC7 eC7 ≠ uint32Claimed oC7.uid eC7.uid oC7.processUid := by
  decide

/-- C7 amended: the uid/gid applied is the first of the configured and the
entry id that is defined and already a valid unsigned 32-bit integer;
failing both, the process id is used unchanged.  No coercion is applied: a
defined result is either a valid u32 or the process id as-is. -/
theorem uid_selection_amended (a b c : Option Int) :
    uint32 a b c = (a.filter isU32).or ((b.filter isU32).or c) ∧
    (∀ x : Int, uint32 a b c = some x → isU32 x = true ∨ c = some x) := by
  constructor
  · obtain _ | x := a <;> obtain _ | y := b <;>
      simp only [uint32, definedU32, Option.filter, Option.or,
        Bool.false_eq_true, if_false] <;>
      split_ifs <;> rfl
  · intro x hx
    obtain _ | a' := a <;> obtain _ | b' := b <;>
        simp only [uint32, definedU32, Bool.false_eq_true, if_false] at hx
    · exact Or.inr hx
    · split_ifs at hx with h
      · cases hx; exact Or.inl h
      · exact Or.inr hx
    · split_ifs at hx with h
      · cases hx; exact Or.inl h
      · exact Or.inr hx
    · split_ifs at hx with h1 h2
      · cases hx; exact Or.inl h1
      · cases hx; exact Or.inl h2
      · exact Or.inr hx

/-- Witness for the amended C7 at a concrete input: `uint32 (some 7) none
(some 9) = some 7` and `7` is a valid u32. -/
theorem uid_selection_amended_witness :
    isU32 7 = true ∨ (some 9 : Option Int) = some 7 :=
  (uid_selection_amended (some 7) none (some 9)).2 7 (by decide)

/-- C2 fails in the sequential-sync profile: for a `GNUDumpDir` entry whose
resolved path equals the extraction root, with a directory on disk,
`UnpackSync[CHECKFS]` issues `rmdirSync(cwd)` and calls `[MAKEFS]` twice,
while `Unpack[CHECKFS2]` issues no removal at the root. -/
theorem cwd_never_removed_sync_violation :
    checkFs2AfterMakeParent oPlain eDumpCwd (some stDir) = ⟨[], false, 1⟩ ∧
    checkFsSyncAfterStat oPlain eDumpCwd (some stDir) =
      ⟨[FsAction.rmdir "/c"], false, 2⟩ ∧
    FsAction.rmdir oPlain.cwd ∈
      (checkFsSyncAfterStat oPlain eDumpCwd (some stDir)).actions := by
  decide

/-- C3 fails: with a directory on disk at `/c/x` and a `File` entry, the
parallel-async profile issues `rmdir` and one `[MAKEFS]` call, while the
sequential-sync profile (missing `return`) issues `rmdir` then `unlink` and
two `[MAKEFS]` calls — different removals and a different final tree. -/
theorem profiles_diverge_on_dir_replacement :
    checkFs2AfterMakeParent oPlain eFileX (some stDir) =
      ⟨[FsAction.rmdir "/c/x"], false, 1⟩ ∧
    checkFsSyncAfterStat oPlain eFileX (some stDir) =
      ⟨[FsAction.rmdir "/c/x", FsAction.unlink "/c/x"], false, 2⟩ ∧
    checkFsSyncAfterStat oPlain eFileX (some stDir) ≠
      checkFs2AfterMakeParent oPlain eFileX (some stDir) := by
  decide

/-- C4 as stated is false at a concrete input: an `OldFile` entry over a
regular file with `nlink = 1`, unlink off, POSIX, is not reused —
`[ISREUSABLE]` tests `entry.type === 'File'` only — so the reconciler
unlinks and recreates instead of overwriting in place. -/
theorem oldfile_reuse_counterexample :
    isReusable oPlain eOldF stFile1 = false ∧
    checkFs2AfterMakeParent oPlain eOldF (some stFile1) =
      ⟨[FsAction.unlink "/c/f"], false, 1⟩ := by
  decide

/-- C4 amended: reuse applies to entries of kind `File` only (not `OldFile`
or `ContiguousFile`): a `File` entry whose target is a regular file with
`nlink ≤ 1`, with the unlink option off, on POSIX (`isWindows = false` in
this model), is reused — no removal is issued and the reconciler goes
straight to the materializer, overwriting the existing inode in place. -/
theorem file_reuse_in_place (o : UnpackOpts) (e : Entry) (st : FsStat)
    (h1 : e.type = EntryType.file) (h2 : o.unlink = false)
    (h3 : st.kind = FsKind.file) (h4 : st.nlink ≤ 1)
    (h5 : o.keep = false) (h6 : o.newer = false) :
    isReusable o e st = true ∧
    checkFs2AfterMakeParent o e (some st) = ⟨[], false, 1⟩ := by
  have hr : isReusable o e st = true := by
    simp [isReusable, h1, h2, h3, h4, isWindows]
  have hs : skipExisting o e st = false := by
    simp [skipExisting, h5, h6]
  refine ⟨hr, ?_⟩
  simp [checkFs2AfterMakeParent, hs, hr]

/-- Witness for the amended C4: a `File` entry at `/c/f` over a regular file
with one link is reused with no removal. -/
theorem file_reuse_in_place_witness :
    isReusable oPlain eFileF stFile1 = true ∧
    checkFs2AfterMakeParent oPlain eFileF (some stFile1) = ⟨[], false, 1⟩ :=
  file_reuse_in_place oPlain eFileF stFile1 rfl rfl rfl (by decide) rfl rfl

/-- C8: an entry whose post-strip segment list has more segments than a
finite `maxDepth` is warned `TAR_ENTRY_ERROR: path excessively deep` and
skipped — resumed with no reservation taken.  An infinite `maxDepth`
(`none`) disables the check, and the default cap is 1024. -/
theorem depth_cap_skips (o : UnpackOpts) (e : Entry) (d : Nat)
    (parts : List String) (e1 : Entry)
    (hs : stripPhase o e = some (parts, e1))
    (hd : o.maxDepth = some d) (hlen : parts.length > d) :
    checkPath o e =
      (none, [⟨WarnCode.entryError, "path excessively deep"⟩]) ∧
    onEntry o e = (EntryOutcome.skipped,
      [⟨WarnCode.entryError, "path excessively deep"⟩]) ∧
    (∀ ps : List String, depthExceeded none ps = false) ∧
    DEFAULT_MAX_DEPTH = 1024 := by
  have hex : depthExceeded o.maxDepth parts = true := by
    rw [hd]
    simp [depthExceeded, hlen]
  have hcp : checkPath o e =
      (none, [⟨WarnCode.entryError, "path excessively deep"⟩]) := by
    unfold checkPath
    simp only [hs]
    rw [if_pos hex]
  refine ⟨hcp, ?_, fun ps => rfl, rfl⟩
  unfold onEntry
  simp only [hcp]

/-- Witness for C8 at S5: `maxDepth = 3`, entry path `a/b/c/d/e` (five
segments) — skipped with the depth warning. -/
theorem depth_cap_skips_witness :
    stripPhase oDepth eDeep = some (["a", "b", "c", "d", "e"], eDeep) ∧
    onEntry oDepth eDeep = (EntryOutcome.skipped,
      [⟨WarnCode.entryError, "path excessively deep"⟩]) :=
  ⟨by decide,
    (depth_cap_skips oDepth eDeep 3 ["a", "b", "c", "d", "e"] eDeep
      (by decide) rfl (by decide)).2.1⟩

/-- C9: a `Directory` or `GNUDumpDir` entry carrying a nonzero mode has the
mode replaced by `mode | 0o700` in `[ONENTRY]` before reconciliation — the
entry handed to `[CHECKFS]` carries the adjusted mode — so the owner rwx
bits are always on and the created directory's mode can differ from the
archive's: mode `0o500` becomes `0o700`. -/
theorem dir_mode_forced (t : EntryType) (m : Nat)
    (ht : t = EntryType.directory ∨ t = EntryType.gnuDumpDir) (hm : m ≠ 0)
    (o : UnpackOpts) (e : Entry) (e1 : Entry) (ws : List Warn)
    (hcp : checkPath o e = (some e1, ws)) (het : e1.type = t) :
    dirModeAdjust t (some m) = some (m ||| 0o700) ∧
    (onEntry o e).1 = EntryOutcome.reserved
      { e1 with mode := dirModeAdjust e1.type e1.mode }
      (reservePathsOf { e1 with mode := dirModeAdjust e1.type e1.mode }) ∧
    dirModeAdjust EntryType.directory (some 0o500) = some 0o700 := by
  refine ⟨?_, ?_, by decide⟩
  · rcases ht with h | h <;> rw [h] <;> simp [dirModeAdjust, hm]
  · unfold onEntry
    simp only [hcp]
    rcases ht with h | h <;> rw [h] at het <;> simp only [het]

/-- Witness for C9: the accepted `Directory` entry `d` with archive mode
`0o500` is reserved with mode `0o700`. -/
theorem dir_mode_forced_witness :
    checkPath oPlain eDirD = (some { eDirD with absolute := "/c/d" }, []) ∧
    (onEntry oPlain eDirD).1 = EntryOutcome.reserved
      { eDirD with absolute := "/c/d", mode := some 0o700 } ["d"] ∧
    dirModeAdjust EntryType.directory (some 0o500) = some 0o700 := by
  refine ⟨by decide, ?_, by decide⟩
  have h := (dir_mode_forced EntryType.directory 0o500 (Or.inl rfl)
    (by decide) oPlain eDirD { eDirD with absolute := "/c/d" } []
    (by decide) rfl).2.1
  exact h.trans (by decide)

theorem string_eq_of_data_eq {s t : String} (h : s.data = t.data) : s = t := by
  cases s; cases t; exact congrArg String.mk h

theorem data_ne_nil {s : String} (h : s ≠ "") : s.data ≠ [] := by
  intro hd
  exact h (string_eq_of_data_eq (by rw [hd]))

theorem nodeJoin2_empty_right (s : String) : nodeJoin2 s "" = s := by
  unfold nodeJoin2
  rw [if_pos rfl]

theorem nodeJoin2_data_root (p : String) (hp : p ≠ "") :
    (nodeJoin2 "/" p).data = '/' :: p.data := by
  unfold nodeJoin2
  rw [if_neg hp, if_pos rfl]
  rfl

theorem nodeJoin2_data_ne (s p : String) (hp : p ≠ "") (hs : s ≠ "/") :
    (nodeJoin2 s p).data = s.data ++ '/' :: p.data := by
  unfold nodeJoin2
  rw [if_neg hp, if_neg hs]
  show ((s ++ "/") ++ p).data = s.data ++ '/' :: p.data
  rw [show ((s ++ "/") ++ p).data = (s.data ++ ['/']) ++ p.data from rfl]
  simp

theorem strictAnc_join (s p : String) (hp : p ≠ "") :
    StrictAnc s (nodeJoin2 s p) := by
  by_cases hs : s = "/"
  · subst hs
    exact ⟨p.data, data_ne_nil hp, by rw [nodeJoin2_data_root p hp]; rfl⟩
  · exact ⟨'/' :: p.data, by simp, nodeJoin2_data_ne s p hp hs⟩

theorem strictAnc_trans {a b c : String} (h1 : StrictAnc a b)
    (h2 : StrictAnc b c) : StrictAnc a c := by
  obtain ⟨t1, ht1, e1⟩ := h1
  obtain ⟨t2, ht2, e2⟩ := h2
  exact ⟨t1 ++ t2, by simp [ht1], by rw [e2, e1, List.append_assoc]⟩

theorem strictAnc_length {a b : String} (h : StrictAnc a b) :
    a.data.length < b.data.length := by
  obtain ⟨t, ht, e⟩ := h
  rw [e, List.length_append]
  have : 0 < t.length := List.length_pos.2 ht
  omega

theorem strictAnc_ne {a b : String} (h : StrictAnc a b) : a ≠ b := by
  intro he
  exact absurd (strictAnc_length h) (by rw [he]; omega)

theorem nodeJoin2_ne_empty (s p : String) (hs : s ≠ "") :
    nodeJoin2 s p ≠ "" := by
  intro he
  by_cases hp : p = ""
  · rw [hp, nodeJoin2_empty_right] at he
    exact hs he
  · by_cases hsr : s = "/"
    · subst hsr
      have hd := nodeJoin2_data_root p hp
      rw [he] at hd
      simp at hd
    · have hd := nodeJoin2_data_ne s p hp hsr
      rw [he] at hd
      simp at hd

theorem dirsAux_anc (l : List String) :
    ∀ (acc : String), (∀ x ∈ l, x ≠ "") →
      ∀ q ∈ dirsAux acc l, StrictAnc acc q := by
  induction l with
  | nil =>
    intro acc _ q hq
    simp [dirsAux] at hq
  | cons p rest ih =>
    intro acc hne q hq
    have hp : p ≠ "" := hne p (by simp)
    simp only [dirsAux] at hq
    rcases List.mem_cons.1 hq with he | hm
    · subst he
      exact strictAnc_join acc p hp
    · exact strictAnc_trans (strictAnc_join acc p hp)
        (ih _ (fun x hx => hne x (by simp [hx])) q hm)

theorem dirsAux_pairwise (l : List String) :
    ∀ (acc : String), (∀ x ∈ l, x ≠ "") →
      List.Pairwise StrictAnc (acc :: dirsAux acc l) := by
  induction l with
  | nil =>
    intro acc _
    simp [dirsAux]
  | cons p rest ih =>
    intro acc hne
    have hp : p ≠ "" := hne p (by simp)
    have hrest : ∀ x ∈ rest, x ≠ "" := fun x hx => hne x (by simp [hx])
    simp only [dirsAux]
    refine List.Pairwise.cons ?_ (ih (nodeJoin2 acc p) hrest)
    intro q hq
    rcases List.mem_cons.1 hq with he | hm
    · subst he
      exact strictAnc_join acc p hp
    · exact strictAnc_trans (strictAnc_join acc p hp)
        (dirsAux_anc rest _ hrest q hm)

theorem dirsAux_chain (l : List String) (acc : String)
    (hne : ∀ x ∈ l, x ≠ "") :
    List.Chain' StrictAnc (acc :: dirsAux acc l) :=
  (dirsAux_pairwise l acc hne).chain'

theorem dirsAux_nodup (l : List String) (acc : String)
    (hne : ∀ x ∈ l, x ≠ "") :
    (acc :: dirsAux acc l).Nodup :=
  (dirsAux_pairwise l acc hne).imp (fun h => strictAnc_ne h)

theorem nodeJoin2_len_le (s p : String) :
    (nodeJoin2 s p).data.length ≤ s.data.length + p.data.length + 1 := by
  by_cases hp : p = ""
  · subst hp
    rw [nodeJoin2_empty_right]
    omega
  · by_cases hs : s = "/"
    · subst hs
      rw [nodeJoin2_data_root p hp]
      have h1 : ("/" : String).data.length = 1 := rfl
      simp only [List.length_cons]
      omega
    · rw [nodeJoin2_data_ne s p hp hs]
      simp only [List.length_append, List.length_cons]
      omega

theorem segLen_cons (p : String) (rest : List String) :
    segLen (p :: rest) = p.data.length + 1 + segLen rest := rfl

theorem segLen_concat (A : List String) (b : String) :
    segLen (A ++ [b]) = segLen A + (b.data.length + 1) := by
  induction A with
  | nil =>
    show b.data.length + 1 + 0 = 0 + (b.data.length + 1)
    omega
  | cons x xs ih =>
    show segLen (x :: (xs ++ [b])) = _
    rw [segLen_cons, ih, segLen_cons]
    omega

theorem dirsAux_len_le (l : List String) :
    ∀ (acc : String), ∀ q ∈ dirsAux acc l,
      q.data.length ≤ acc.data.length + segLen l := by
  induction l with
  | nil =>
    intro acc q hq
    simp [dirsAux] at hq
  | cons p rest ih =>
    intro acc q hq
    simp only [dirsAux] at hq
    have hj := nodeJoin2_len_le acc p
    rw [segLen_cons]
    rcases List.mem_cons.1 hq with he | hm
    · subst he
      have h0 : 0 ≤ segLen rest := Nat.zero_le _
      omega
    · have hq' := ih (nodeJoin2 acc p) q hm
      omega

theorem splitChars_ne_nil (sep : Char) (l : List Char) :
    splitChars sep l ≠ [] := by
  induction l with
  | nil => simp [splitChars]
  | cons c rest ih =>
    simp only [splitChars]
    by_cases hc : c = sep
    · simp [hc]
    · rw [if_neg hc]
      rcases hr : splitChars sep rest with _ | ⟨h, t⟩ <;> simp

theorem joinChars_splitChars (sep : Char) (l : List Char) :
    joinChars sep (splitChars sep l) = l := by
  induction l with
  | nil => rfl
  | cons c rest ih =>
    simp only [splitChars]
    by_cases hc : c = sep
    · rw [if_pos hc]
      rcases hr : splitChars sep rest with _ | ⟨h, t⟩
      · exact absurd hr (splitChars_ne_nil sep rest)
      · rw [hr] at ih
        show [] ++ sep :: joinChars sep (h :: t) = c :: rest
        rw [List.nil_append, hc, ih]
    · rw [if_neg hc]
      rcases hr : splitChars sep rest with _ | ⟨h, t⟩
      · exact absurd hr (splitChars_ne_nil sep rest)
      · rw [hr] at ih
        rcases t with _ | ⟨t1, ts⟩
        · show c :: h = c :: rest
          rw [show h = rest from ih]
        · show (c :: h) ++ sep :: joinChars sep (t1 :: ts) = c :: rest
          rw [List.cons_append]
          exact congrArg (fun x => c :: x) ih

theorem joinChars_length (sep : Char) :
    ∀ (L : List (List Char)) (l0 : List Char),
      (joinChars sep (l0 :: L)).length =
        l0.length + L.foldr (fun x n => x.length + 1 + n) 0 := by
  intro L
  induction L with
  | nil =>
    intro l0
    simp [joinChars]
  | cons l1 L ih =>
    intro l0
    show (l0 ++ sep :: joinChars sep (l1 :: L)).length = _
    rw [List.length_append, List.length_cons, ih l1]
    simp only [List.foldr_cons]
    omega

theorem segLen_map_data (parts : List String) :
    (parts.map String.data).foldr (fun x n => x.length + 1 + n) 0 =
      segLen parts := by
  induction parts with
  | nil => rfl
  | cons x xs ih =>
    simp only [List.map_cons, List.foldr_cons, ih]
    rfl

theorem jsSplit_splitChars {sep : Char} {path : String}
    {parts : List String} (h : jsSplit sep path = parts) :
    splitChars sep path.data = parts.map String.data := by
  have h2 := congrArg (List.map String.data) h
  rw [jsSplit, List.map_map] at h2
  have hdm : String.data ∘ String.mk = id := rfl
  rw [hdm, List.map_id] at h2
  exact h2

theorem path_data_of_split {path : String} {parts : List String}
    (h : jsSplit '/' path = parts) :
    path.data = joinChars '/' (parts.map String.data) := by
  rw [← jsSplit_splitChars h, joinChars_splitChars]

theorem path_length_of_split {path : String} {h0 : String}
    {t0 : List String} (h : jsSplit '/' path = h0 :: t0) :
    path.data.length = h0.data.length + segLen t0 := by
  rw [path_data_of_split h, List.map_cons, joinChars_length,
    segLen_map_data]

theorem gdBody_nil (p : String) (hp : p ≠ "") : gdBody [] p = [p] := by
  simp [gdBody, hp]

theorem gdBody_root : gdBody [] "" = ["/"] := rfl

theorem gdBody_concat (set : List String) (a p : String)
    (hlast : set.getLast? = some a) (hj : nodeJoin2 a p ≠ "") :
    gdBody set p = set ++ [nodeJoin2 a p] := by
  simp only [gdBody, hlast]
  rw [if_neg hj]

theorem foldl_gdBody_dirsAux (l : List String) :
    ∀ (set : List String) (a : String), set.getLast? = some a → a ≠ "" →
      (∀ x ∈ l, x ≠ "") →
      l.foldl gdBody set = set ++ dirsAux a l := by
  induction l with
  | nil =>
    intro set a _ _ _
    simp [dirsAux]
  | cons p rest ih =>
    intro set a hlast ha hne
    have hp : p ≠ "" := hne p (by simp)
    have hj : nodeJoin2 a p ≠ "" := nodeJoin2_ne_empty a p ha
    rw [List.foldl_cons, gdBody_concat set a p hlast hj,
      ih (set ++ [nodeJoin2 a p]) (nodeJoin2 a p)
        (List.getLast?_concat set) hj (fun x hx => hne x (by simp [hx]))]
    simp [dirsAux]

theorem getDirs_single {path p1 : String}
    (hsplit : jsSplit '/' path = [p1]) : getDirs path = [] := by
  unfold getDirs
  rw [hsplit]
  rfl

theorem getDirs_rel {path p1 : String} {init : List String}
    {lastP : String}
    (hsplit : jsSplit '/' path = p1 :: (init ++ [lastP]))
    (hp1 : p1 ≠ "") (hinit : ∀ x ∈ init, x ≠ "") :
    getDirs path = p1 :: dirsAux p1 init := by
  unfold getDirs
  rw [hsplit,
    show p1 :: (init ++ [lastP]) = (p1 :: init) ++ [lastP] from rfl,
    List.dropLast_concat, List.foldl_cons, gdBody_nil p1 hp1]
  exact foldl_gdBody_dirsAux init [p1] p1 rfl hp1 hinit

theorem getDirs_abs {path : String} {init : List String} {lastP : String}
    (hsplit : jsSplit '/' path = "" :: (init ++ [lastP]))
    (hinit : ∀ x ∈ init, x ≠ "") :
    getDirs path = "/" :: dirsAux "/" init := by
  unfold getDirs
  rw [hsplit,
    show ("" :: (init ++ [lastP])) = ("" :: init) ++ [lastP] from rfl,
    List.dropLast_concat, List.foldl_cons, gdBody_root]
  exact foldl_gdBody_dirsAux init ["/"] "/" rfl (by decide) hinit

/-- C5 as stated is false at a concrete input: for the canonical relative
path `a/b` — the form `[CHECKFS]` hands to the scheduler — the computed
ancestor list is `["a"]` and does not include the filesystem root `/`. -/
theorem getDirs_no_root_counterexample :
    getDirs "a/b" = ["a"] ∧ "/" ∉ getDirs "a/b" := by decide

/-- C5 amended: for a path of plain slash-separated segments, `getDirs`
returns a duplicate-free list, strictly ordered from the top ancestor down
(each entry a strict prefix-by-extension of the next), excluding the path
itself; it includes the filesystem root `/` exactly when the path is
absolute — relative paths (the usual input) start at their first segment
and never include `/`. -/
theorem getDirs_ancestor_chain (path : String) (abs : Bool)
    (parts : List String) (hne : parts ≠ [])
    (hplain : ∀ x ∈ parts, PlainSeg x)
    (hsplit : jsSplit '/' path = (if abs then "" :: parts else parts)) :
    (getDirs path).Nodup ∧
    List.Chain' StrictAnc (getDirs path) ∧
    path ∉ getDirs path ∧
    ("/" ∈ getDirs path ↔ abs = true) := by
  cases abs with
  | false =>
    rw [if_neg (by simp)] at hsplit
    rcases parts with _ | ⟨p1, rest⟩
    · exact absurd rfl hne
    · have hp1 : PlainSeg p1 := hplain p1 (by simp)
      rcases List.eq_nil_or_concat' rest with hrest | ⟨init, lastP, hrest⟩
      · subst hrest
        rw [getDirs_single hsplit]
        exact ⟨List.nodup_nil, List.chain'_nil, by simp, by simp⟩
      · subst hrest
        have hinit : ∀ x ∈ init, x ≠ "" := fun x hx =>
          (hplain x (by simp [hx])).1
        have hg : getDirs path = p1 :: dirsAux p1 init :=
          getDirs_rel hsplit hp1.1 hinit
        have hlen := path_length_of_split hsplit
        rw [segLen_concat] at hlen
        rw [hg]
        refine ⟨dirsAux_nodup init p1 hinit,
          dirsAux_chain init p1 hinit, ?_, ?_⟩
        · intro hmem
          rcases List.mem_cons.1 hmem with he | hm
          · have hlp := congrArg (fun s : String => s.data.length) he
            simp only at hlp
            omega
          · have hub := dirsAux_len_le init p1 path hm
            omega
        · constructor
          · intro hmem
            exfalso
            rcases List.mem_cons.1 hmem with he | hm
            · exact hp1.2.2.2 (he ▸ (by decide : '/' ∈ ("/" : String).data))
            · have hanc := dirsAux_anc init p1 hinit "/" hm
              have hl := strictAnc_length hanc
              have h1 : 0 < p1.data.length :=
                List.length_pos.2 (data_ne_nil hp1.1)
              have h2 : ("/" : String).data.length = 1 := rfl
              omega
          · intro hgf
            exact absurd hgf (by simp)
  | true =>
    rw [if_pos rfl] at hsplit
    rcases List.eq_nil_or_concat' parts with hp | ⟨init, lastP, hp⟩
    · exact absurd hp hne
    · subst hp
      have hinit : ∀ x ∈ init, x ≠ "" := fun x hx =>
        (hplain x (by simp [hx])).1
      have hlast : PlainSeg lastP := hplain lastP (by simp)
      have hg := getDirs_abs hsplit hinit
      have hlen := path_length_of_split hsplit
      rw [segLen_concat] at hlen
      have h0 : ("" : String).data.length = 0 := rfl
      have h1 : 0 < lastP.data.length :=
        List.length_pos.2 (data_ne_nil hlast.1)
      rw [hg]
      refine ⟨dirsAux_nodup init "/" hinit,
        dirsAux_chain init "/" hinit, ?_, ?_⟩
      · intro hmem
        rcases List.mem_cons.1 hmem with he | hm
        · have hlp : path.data.length = 1 := by rw [he]; rfl
          omega
        · have hub := dirsAux_len_le init "/" path hm
          have h2 : ("/" : String).data.length = 1 := rfl
          omega
      · exact ⟨fun _ => rfl, fun _ => List.mem_cons_self _ _⟩

/-- Witness for the amended C5 at concrete inputs: the absolute path
`/a/b` yields an ancestor list containing `/`, while the relative `a/b`
yields one not containing itself. -/
theorem getDirs_ancestor_chain_witness :
    ("/" ∈ getDirs "/a/b") ∧ "a/b" ∉ getDirs "a/b" :=
  ⟨(getDirs_ancestor_chain "/a/b" true ["a", "b"] (by decide) (by decide)
      (by decide)).2.2.2.mpr rfl,
    (getDirs_ancestor_chain "a/b" false ["a", "b"] (by decide) (by decide)
      (by decide)).2.2.1⟩

end NodeTar
